import Mathlib

/-!
Verification of the backtest simulation engine of `AiStockTrading`
(`src/kiwoom_rest_bot/backtest_app.py`, function `run_backtest`, with the
ranking computation shared with `magic_formula_analyzer.py`).

The engine is shallowly embedded: pandas dataframes become lists of row
structures, `price_df.loc[date, ticker]` becomes an `Option`-valued lookup,
Python floats become `ℚ`, and the day loop becomes a fold over the list of
trading days.  `pd.date_range(start, end, freq)` is a pandas library call
outside the repository; `run_backtest` is therefore parameterized by the
anchor list it produces (`rebalance_dates` in the source).  Python's
`dict` (`portfolio`) is modelled as an association list with
insertion-order-preserving overwrite, which is exactly `dict` semantics.
`pandas.DataFrame.sort_values` is modelled as a stable sort; every theorem
below that depends on the order of the sorted output is stated in a
situation where the sort keys are pairwise distinct, so the choice of
tie order in the model is never load-bearing.
-/

namespace AiStock

/-- Calendar date, encoded as a year and a day index inside the year.  The
engine only ever compares dates and reads `date.year`, so any injective,
order-respecting encoding of `pd.Timestamp` is adequate. -/
structure Date where
  year : Int
  doy : Int
deriving DecidableEq, Repr

def Date.le (a b : Date) : Prop :=
  a.year < b.year ∨ (a.year = b.year ∧ a.doy ≤ b.doy)

def Date.lt (a b : Date) : Prop :=
  a.year < b.year ∨ (a.year = b.year ∧ a.doy < b.doy)

instance : LE Date := ⟨Date.le⟩

instance : LT Date := ⟨Date.lt⟩

instance (a b : Date) : Decidable (a ≤ b) :=
  decidable_of_iff (a.year < b.year ∨ (a.year = b.year ∧ a.doy ≤ b.doy)) Iff.rfl

instance (a b : Date) : Decidable (a < b) :=
  decidable_of_iff (a.year < b.year ∨ (a.year = b.year ∧ a.doy < b.doy)) Iff.rfl

instance : IsTotal Date (· ≤ ·) :=
  ⟨fun a b => by
    show Date.le a b ∨ Date.le b a
    unfold Date.le
    omega⟩

instance : IsTrans Date (· ≤ ·) :=
  ⟨fun a b c h1 h2 => by
    have g1 : Date.le a b := h1
    have g2 : Date.le b c := h2
    show Date.le a c
    unfold Date.le at *
    omega⟩

/-- Row of the `financial_info` table (ticker, fiscal business year, and the
two already-derived ratios; `none` models a SQL NULL / pandas NaN that
`dropna` removes). -/
structure FinRow where
  ticker : String
  business_year : Int
  roe : Option ℚ
  ev_ebitda : Option ℚ
deriving DecidableEq, Repr

/-- Row of the `daily_charts` table, restricted to the `close` column, the
only one `run_backtest` reads after the pivot. -/
structure ChartRow where
  ticker : String
  date : Date
  close : ℚ
deriving DecidableEq, Repr

/-- Lookup `price_df.loc[date, ticker]` after
`price_df = daily_charts.pivot(index="date", columns="ticker", values="close")`:
`none` when the `(ticker, date)` cell is absent (pandas NaN), covering both the
`ticker in price_df.columns` test and the `pd.isna` test of the source.  The
pivot requires at most one row per `(ticker, date)`. -/
def priceOn (charts : List ChartRow) (d : Date) (t : String) : Option ℚ :=
  (charts.find? (fun r => r.ticker == t && r.date == d)).map (fun r => r.close)

/-- Filter of lines 72–73: `dropna(subset=["roe", "ev_ebitda"])` followed by
`roe > 0 ∧ ev_ebitda > 0`. -/
def eligible (r : FinRow) : Bool :=
  match r.roe, r.ev_ebitda with
  | some roe, some ev => decide (0 < roe) && decide (0 < ev)
  | _, _ => false

/-- Line 69: `financial_info[financial_info['business_year'] == current_business_year]`. -/
def finForYear (financial : List FinRow) (y : Int) : List FinRow :=
  financial.filter (fun r => r.business_year == y)

def roeOf (r : FinRow) : ℚ := r.roe.getD 0

def evOf (r : FinRow) : ℚ := r.ev_ebitda.getD 0

/-- Line 76: `df_filtered["roe"].rank(ascending=False)` with the pandas default
`method="average"`: the rank of a row is the number of strictly better rows
plus the average of the positions occupied by its ties,
`#{strictly greater} + (#{equal} + 1) / 2`. -/
def rankRoe (fl : List FinRow) (r : FinRow) : ℚ :=
  (fl.countP (fun s => decide (roeOf r < roeOf s)) : ℚ) +
    ((fl.countP (fun s => decide (roeOf s = roeOf r)) : ℚ) + 1) / 2

/-- Line 77: `df_filtered["ev_ebitda"].rank(ascending=True)`, average method. -/
def rankEvEbitda (fl : List FinRow) (r : FinRow) : ℚ :=
  (fl.countP (fun s => decide (evOf s < evOf r)) : ℚ) +
    ((fl.countP (fun s => decide (evOf s = evOf r)) : ℚ) + 1) / 2

/-- Line 78: `rank_total = rank_roe + rank_ev_ebitda`. -/
def rankTotal (fl : List FinRow) (r : FinRow) : ℚ :=
  rankRoe fl r + rankEvEbitda fl r

/-- Line 79: `df_filtered.sort_values(by="rank_total")`, modelled as a stable
sort of the rows decorated with their `rank_total` key. -/
def sortByRankTotal (fl : List FinRow) : List FinRow :=
  ((fl.map (fun r => (rankTotal fl r, r))).insertionSort
      (fun a b => a.1 ≤ b.1)).map (fun p => p.2)

/-- Line 80: `df_sorted.head(num_stocks)["ticker"].tolist()`. -/
def rankSelection (fl : List FinRow) (n : Nat) : List String :=
  ((sortByRankTotal fl).map (fun r => r.ticker)).take n

/-- Lines 67–80: the ranking block of a rebalance.  `prev` is the previous
content of the `magic_formula_tickers` variable, which the source keeps
unchanged when `fi_for_year` or `df_filtered` is empty. -/
def updateTickers (financial : List FinRow) (prev : List String) (d : Date)
    (n : Nat) : List String :=
  let fiY := finForYear financial (d.year - 1)
  if fiY.isEmpty then prev
  else
    let fl := fiY.filter eligible
    if fl.isEmpty then prev
    else rankSelection fl n

/-- Python `dict` holdings: ticker to share count, insertion ordered. -/
abbrev Portfolio := List (String × ℚ)

/-- Python `portfolio[ticker] = shares`: overwrite in place, else append. -/
def insertPf : Portfolio → String → ℚ → Portfolio
  | [], t, s => [(t, s)]
  | p :: rest, t, s => if p.1 = t then (t, s) :: rest else p :: insertPf rest t s

/-- Body of the accumulation loops of lines 84–88 and 106–109: add
`price × shares` when the holding is priced on `d`, skip it otherwise. -/
def pfStep (charts : List ChartRow) (d : Date) (acc : ℚ) (p : String × ℚ) : ℚ :=
  match priceOn charts d p.1 with
  | some price => acc + price * p.2
  | none => acc

/-- Sum of `shares × close` over the holdings that have a price on `d`
(lines 84–88 compute it as `sell_value`, lines 106–109 as
`current_portfolio_value`; a holding with no price contributes nothing). -/
def pfValue (charts : List ChartRow) (d : Date) (pf : Portfolio) : ℚ :=
  pf.foldl (pfStep charts d) 0

/-- Lines 82–89: sell everything; holdings priced on `d` are recovered at
`(1 - transaction_cost)` of value, unpriced holdings are abandoned. -/
def liquidate (charts : List ChartRow) (d : Date) (tc : ℚ) (pf : Portfolio)
    (cash : ℚ) : Portfolio × ℚ :=
  if pf.isEmpty then (pf, cash)
  else ([], cash + pfValue charts d pf * (1 - tc))

/-- Body of the buy loop, lines 94–100. -/
def buyOne (charts : List ChartRow) (d : Date) (tc : ℚ) (cps : ℚ)
    (acc : Portfolio × ℚ) (t : String) : Portfolio × ℚ :=
  match priceOn charts d t with
  | some price =>
      if 0 < price then
        (insertPf acc.1 t (cps / price), acc.2 - cps / price * price * (1 + tc))
      else acc
  | none => acc

/-- Lines 91–100: equal-weight allocation over the current ticker list,
guarded by `cash > 0 and magic_formula_tickers`. -/
def allocate (charts : List ChartRow) (d : Date) (tc : ℚ)
    (tickers : List String) (pf : Portfolio) (cash : ℚ) : Portfolio × ℚ :=
  if 0 < cash ∧ tickers ≠ [] then
    tickers.foldl (buyOne charts d tc (cash / (tickers.length : ℚ))) (pf, cash)
  else (pf, cash)

/-- Full engine state carried across the day loop.  `lastRebalance = none`
models the `pd.Timestamp.min` initialization; `rebLog` is a ghost trace of
the dates on which the rebalance branch ran (line 102 executions). -/
structure SimState where
  portfolio : Portfolio
  cash : ℚ
  lastRebalance : Option Date
  magicTickers : List String
  history : List (Date × ℚ)
  rebLog : List Date
deriving DecidableEq, Repr

def initState (initialCapital : ℚ) : SimState :=
  { portfolio := [], cash := initialCapital, lastRebalance := none,
    magicTickers := [], history := [], rebLog := [] }

/-- Minimum of a list of dates (`DatetimeIndex.min()`), `none` when empty. -/
def minD : List Date → Option Date
  | [] => none
  | d :: ds =>
    match minD ds with
    | none => some d
    | some m => if d ≤ m then some d else some m

/-- Line 60: `rebalance_dates[rebalance_dates > last_rebalance_date]`. -/
def anchorsAfter (anchors : List Date) (last : Option Date) : List Date :=
  anchors.filter
    (fun a => match last with | none => true | some l => decide (l < a))

/-- Lines 59–62: the earliest anchor strictly after the last rebalance,
`none` when no anchor remains (pandas `NaT` / the exception branch). -/
def nextRebalanceDate (anchors : List Date) (last : Option Date) : Option Date :=
  minD (anchorsAfter anchors last)

/-- Line 64: `date >= next_rebalance_date` (a comparison with `NaT` is false). -/
def triggers (anchors : List Date) (last : Option Date) (d : Date) : Bool :=
  match nextRebalanceDate anchors last with
  | none => false
  | some nr => decide (nr ≤ d)

/-- Lines 65–103: the whole rebalance branch of one loop iteration. -/
def rebalance (financial : List FinRow) (charts : List ChartRow) (n : Nat)
    (tc : ℚ) (s : SimState) (d : Date) : SimState :=
  let tickers := updateTickers financial s.magicTickers d n
  let lq := liquidate charts d tc s.portfolio s.cash
  let al := allocate charts d tc tickers lq.1 lq.2
  { portfolio := al.1, cash := al.2, lastRebalance := some d,
    magicTickers := tickers, history := s.history, rebLog := s.rebLog ++ [d] }

/-- Lines 58–112: one iteration of the day loop — conditionally rebalance,
then value the (possibly updated) portfolio and append the day's point. -/
def dayStep (financial : List FinRow) (charts : List ChartRow)
    (anchors : List Date) (n : Nat) (tc : ℚ) (s : SimState) (d : Date) :
    SimState :=
  let s1 := if triggers anchors s.lastRebalance d then
      rebalance financial charts n tc s d
    else s
  { s1 with history := s1.history ++ [(d, s1.cash + pfValue charts d s1.portfolio)] }

/-- The day loop as a fold. -/
def runDays (financial : List FinRow) (charts : List ChartRow)
    (anchors : List Date) (n : Nat) (tc : ℚ) (s : SimState)
    (days : List Date) : SimState :=
  days.foldl (dayStep financial charts anchors n tc) s

/-- Sort an arbitrary list of dates ascending. -/
def sortDates (l : List Date) : List Date :=
  l.insertionSort (fun a b => a ≤ b)

/-- Lines 45–46: the pivot index restricted to `[start_date, end_date]` — the
distinct chart dates in the window, ascending. -/
def tradeDates (charts : List ChartRow) (startD endD : Date) : List Date :=
  sortDates (((charts.map (fun r => r.date)).dedup).filter
    (fun d => decide (startD ≤ d) && decide (d ≤ endD)))

/-- Lines 33–114 of `backtest_app.py`, final state.  `rebalance_dates` is the
anchor list that `pd.date_range(start_date, end_date, freq=rebalance_period)`
produces (anchor generation is pandas library code, outside the repository). -/
def runBacktestState (startD endD : Date) (initial_capital : ℚ)
    (num_stocks : Nat) (rebalance_dates : List Date) (transaction_cost : ℚ)
    (financial_info : List FinRow) (daily_charts : List ChartRow) : SimState :=
  runDays financial_info daily_charts rebalance_dates num_stocks
    transaction_cost (initState initial_capital)
    (tradeDates daily_charts startD endD)

/-- The function `run_backtest` itself: the returned `portfolio_history` dataframe, as the
list of (date, total asset value) points; an empty trading-day window returns
the empty result (line 47–48). -/
def run_backtest (startD endD : Date) (initial_capital : ℚ) (num_stocks : Nat)
    (rebalance_dates : List Date) (transaction_cost : ℚ)
    (financial_info : List FinRow) (daily_charts : List ChartRow) :
    List (Date × ℚ) :=
  if (tradeDates daily_charts startD endD).isEmpty then []
  else
    (runBacktestState startD endD initial_capital num_stocks rebalance_dates
      transaction_cost financial_info daily_charts).history

/-! Auxiliary definitions used by the theorem statements. -/

/-- Gross purchase amount (shares × price summed over the executed buys) of an
allocation pass over `tickers` with `capital_per_stock = cps`; the cash the
engine deducts is this amount times `(1 + transaction_cost)`. -/
def buyGrossOutlay (charts : List ChartRow) (d : Date) (cps : ℚ) :
    List String → ℚ
  | [] => 0
  | t :: ts =>
    (match priceOn charts d t with
     | some price => if 0 < price then cps / price * price else 0
     | none => 0) + buyGrossOutlay charts d cps ts

/-- Gross purchase amount of the whole allocation step of a rebalance on `d`
from state `s`: the sum of `shares × price` over the buys the engine
executes (zero when the `cash > 0 and magic_formula_tickers` guard fails). -/
def rebalanceBuyGross (financial : List FinRow) (charts : List ChartRow)
    (n : Nat) (tc : ℚ) (s : SimState) (d : Date) : ℚ :=
  let tickers := updateTickers financial s.magicTickers d n
  let cash1 := (liquidate charts d tc s.portfolio s.cash).2
  if 0 < cash1 ∧ tickers ≠ [] then
    buyGrossOutlay charts d (cash1 / (tickers.length : ℚ)) tickers
  else 0

/-- Number of target tickers with an available positive price on `d`. -/
def pricedCount (charts : List ChartRow) (d : Date) (ts : List String) : Nat :=
  ts.countP
    (fun t =>
      match priceOn charts d t with
      | some price => decide (0 < price)
      | none => false)

/-- Every holding records a nonnegative share count. -/
def sharesNonneg (pf : Portfolio) : Prop := ∀ p ∈ pf, 0 ≤ p.2

/-- Valuation written as a sum over exactly the priced holdings: a holding
with no price on `d` is dropped from the sum, not valued at zero. -/
def pricedHoldingsValue (charts : List ChartRow) (d : Date) (pf : Portfolio) : ℚ :=
  (pf.filterMap
    (fun p => (priceOn charts d p.1).map (fun price => price * p.2))).sum

/-- Sequence of engine states after each successive trading day. -/
def statesAlong (financial : List FinRow) (charts : List ChartRow)
    (anchors : List Date) (n : Nat) (tc : ℚ) :
    SimState → List Date → List SimState
  | _, [] => []
  | s, d :: ds =>
    dayStep financial charts anchors n tc s d ::
      statesAlong financial charts anchors n tc
        (dayStep financial charts anchors n tc s d) ds

/-- The rebalance schedule as the specification words it: walking the trading
days in order, a rebalance triggers on the first trading day whose date is ≥
the earliest scheduled anchor strictly after the previous rebalance date. -/
def specSchedule (anchors : List Date) : Option Date → List Date → List Date
  | _, [] => []
  | last, d :: ds =>
    match nextRebalanceDate anchors last with
    | none => []
    | some a =>
      if a ≤ d then d :: specSchedule anchors (some d) ds
      else specSchedule anchors last ds

/-- The ranking pipeline the code applies to a fundamentals snapshot: the
eligibility filter of lines 72–73 followed by the average-method ranking and
selection of lines 76–80 (also the pipeline of
`magic_formula_analyzer.analyze_magic_formula`, lines 47–70). -/
def codeRanking (snapshot : List FinRow) (n : Nat) : List String :=
  rankSelection (snapshot.filter eligible) n

/-- Rank by `roe` descending as the specification words it: ties within the
dimension broken by ticker lexical order, so each record gets the distinct
rank `1 + #{records strictly better or tied with a smaller ticker}`. -/
def specRankRoe (fl : List FinRow) (r : FinRow) : ℚ :=
  (fl.countP
    (fun s =>
      decide (roeOf r < roeOf s) ||
        (decide (roeOf s = roeOf r) && decide (s.ticker < r.ticker))) : ℚ) + 1

/-- Rank by `ev_ebitda` ascending, ties broken by ticker lexical order. -/
def specRankEv (fl : List FinRow) (r : FinRow) : ℚ :=
  (fl.countP
    (fun s =>
      decide (evOf s < evOf r) ||
        (decide (evOf s = evOf r) && decide (s.ticker < r.ticker))) : ℚ) + 1

def specRankTotal (fl : List FinRow) (r : FinRow) : ℚ :=
  specRankRoe fl r + specRankEv fl r

/-- The ranking algorithm exactly as claim C5 describes it: drop ineligible
records, rank each dimension with ticker-lexical tie-breaks, sum the two
ranks, sort ascending by the combined score, return the first `n` tickers. -/
def claimedRanking (snapshot : List FinRow) (n : Nat) : List String :=
  let fl := snapshot.filter eligible
  ((((fl.map (fun r => (specRankTotal fl r, r))).insertionSort
      (fun a b => a.1 ≤ b.1)).map (fun p => p.2)).map
        (fun r => r.ticker)).take n

/-! Basic lemmas about the embedded operations. -/

/-- Contribution of one holding to the valuation sum. -/
def pfTerm (charts : List ChartRow) (d : Date) (p : String × ℚ) : ℚ :=
  match priceOn charts d p.1 with
  | some price => price * p.2
  | none => 0

/-- Keys (tickers) of a portfolio. -/
def pfKeys (pf : Portfolio) : List String := pf.map Prod.fst

/-! Order lemmas for `Date`. -/

theorem Date.le_def {a b : Date} :
    a ≤ b ↔ (a.year < b.year ∨ (a.year = b.year ∧ a.doy ≤ b.doy)) := Iff.rfl

theorem Date.lt_def {a b : Date} :
    a < b ↔ (a.year < b.year ∨ (a.year = b.year ∧ a.doy < b.doy)) := Iff.rfl

theorem Date.le_refl (a : Date) : a ≤ a :=
  Or.inr ⟨rfl, Int.le_refl a.doy⟩

theorem Date.le_trans {a b c : Date} (h1 : a ≤ b) (h2 : b ≤ c) : a ≤ c := by
  simp only [Date.le_def] at *; omega

theorem Date.lt_trans {a b c : Date} (h1 : a < b) (h2 : b < c) : a < c := by
  simp only [Date.lt_def] at *; omega

theorem Date.lt_of_lt_of_le {a b c : Date} (h1 : a < b) (h2 : b ≤ c) : a < c := by
  simp only [Date.lt_def, Date.le_def] at *; omega

theorem Date.lt_of_le_of_lt {a b c : Date} (h1 : a ≤ b) (h2 : b < c) : a < c := by
  simp only [Date.lt_def, Date.le_def] at *; omega

theorem Date.le_of_lt {a b : Date} (h : a < b) : a ≤ b := by
  simp only [Date.lt_def, Date.le_def] at *; omega

theorem Date.not_lt {a b : Date} : ¬ a < b ↔ b ≤ a := by
  simp only [Date.lt_def, Date.le_def]; omega

theorem Date.le_total (a b : Date) : a ≤ b ∨ b ≤ a := by
  simp only [Date.le_def]; omega

theorem Date.le_antisymm {a b : Date} (h1 : a ≤ b) (h2 : b ≤ a) : a = b := by
  rcases a with ⟨ya, da⟩; rcases b with ⟨yb, db⟩
  simp only [Date.le_def] at h1 h2
  simp only [Date.mk.injEq]
  omega

theorem Date.lt_year_le {a b : Date} (h : a < b) : a.year ≤ b.year := by
  simp only [Date.lt_def] at h; omega

theorem Date.le_year_le {a b : Date} (h : a ≤ b) : a.year ≤ b.year := by
  simp only [Date.le_def] at h; omega

theorem pfStep_eq (charts : List ChartRow) (d : Date) (a : ℚ) (p : String × ℚ) :
    pfStep charts d a p = a + pfTerm charts d p := by
  unfold pfStep pfTerm
  cases priceOn charts d p.1 <;> simp

theorem pfValue_foldl_shift (charts : List ChartRow) (d : Date) :
    ∀ (pf : Portfolio) (a : ℚ),
      pf.foldl (pfStep charts d) a = a + pf.foldl (pfStep charts d) 0
  | [], a => by simp
  | p :: pf, a => by
    rw [List.foldl_cons, List.foldl_cons,
      pfValue_foldl_shift charts d pf (pfStep charts d a p),
      pfValue_foldl_shift charts d pf (pfStep charts d 0 p),
      pfStep_eq, pfStep_eq]
    ring

theorem pfValue_nil (charts : List ChartRow) (d : Date) :
    pfValue charts d [] = 0 := rfl

theorem pfValue_cons (charts : List ChartRow) (d : Date) (p : String × ℚ)
    (pf : Portfolio) :
    pfValue charts d (p :: pf) = pfTerm charts d p + pfValue charts d pf := by
  unfold pfValue
  rw [List.foldl_cons, pfValue_foldl_shift charts d pf (pfStep charts d 0 p),
    pfStep_eq]
  ring

theorem pfValue_append (charts : List ChartRow) (d : Date) :
    ∀ (pf1 pf2 : Portfolio),
      pfValue charts d (pf1 ++ pf2) = pfValue charts d pf1 + pfValue charts d pf2
  | [], pf2 => by simp [pfValue_nil]
  | p :: pf1, pf2 => by
    simp only [List.cons_append, pfValue_cons, pfValue_append charts d pf1 pf2]
    ring

theorem pfValue_eq_pricedHoldingsValue (charts : List ChartRow) (d : Date) :
    ∀ pf : Portfolio, pfValue charts d pf = pricedHoldingsValue charts d pf
  | [] => rfl
  | p :: pf => by
    rw [pfValue_cons]
    unfold pricedHoldingsValue pfTerm at *
    cases h : priceOn charts d p.1 <;>
      simp [List.filterMap_cons, h, pfValue_eq_pricedHoldingsValue charts d pf,
        pricedHoldingsValue]

theorem insertPf_of_not_mem :
    ∀ (pf : Portfolio) (t : String) (x : ℚ), ¬ t ∈ pfKeys pf →
      insertPf pf t x = pf ++ [(t, x)]
  | [], t, x, _ => rfl
  | p :: pf, t, x, h => by
    have h1 : ¬ p.1 = t := by
      intro he
      exact h (by simp [pfKeys, he])
    have h2 : ¬ t ∈ pfKeys pf := by
      intro hm
      exact h (by simp [pfKeys] at hm ⊢; exact Or.inr hm)
    simp only [insertPf, if_neg h1, insertPf_of_not_mem pf t x h2,
      List.cons_append]

theorem sharesNonneg_insertPf :
    ∀ (pf : Portfolio) (t : String) (x : ℚ), sharesNonneg pf → 0 ≤ x →
      sharesNonneg (insertPf pf t x)
  | [], t, x, _, hx => by
    intro p hp
    simp [insertPf] at hp
    simp [hp, hx]
  | q :: pf, t, x, h, hx => by
    intro p hp
    simp only [insertPf] at hp
    by_cases he : q.1 = t
    · rw [if_pos he] at hp
      rcases List.mem_cons.mp hp with h1 | h1
      · simp [h1, hx]
      · exact h p (List.mem_cons_of_mem q h1)
    · rw [if_neg he] at hp
      rcases List.mem_cons.mp hp with h1 | h1
      · exact h p (h1 ▸ List.mem_cons_self q pf)
      · exact sharesNonneg_insertPf pf t x
          (fun r hr => h r (List.mem_cons_of_mem q hr)) hx p h1

theorem minD_mem : ∀ {l : List Date} {m : Date}, minD l = some m → m ∈ l
  | [], m, h => by simp [minD] at h
  | d :: ds, m, h => by
    cases hm : minD ds with
    | none =>
      simp only [minD, hm] at h
      simp at h
      simp [h]
    | some m' =>
      simp only [minD, hm] at h
      by_cases hle : d ≤ m'
      · rw [if_pos hle] at h
        simp at h
        simp [h]
      · rw [if_neg hle] at h
        simp at h
        exact List.mem_cons_of_mem d (h ▸ minD_mem hm)

theorem anchorsAfter_lt {anchors : List Date} {l a : Date}
    (h : a ∈ anchorsAfter anchors (some l)) : l < a := by
  unfold anchorsAfter at h
  rcases List.mem_filter.mp h with ⟨_, hd⟩
  exact of_decide_eq_true hd

theorem nextRebalanceDate_lt {anchors : List Date} {l a : Date}
    (h : nextRebalanceDate anchors (some l) = some a) : l < a :=
  anchorsAfter_lt (minD_mem h)

/-! Characterization of the allocation loop (lines 91–100). -/

theorem buyOne_none {charts : List ChartRow} {d : Date} {t : String}
    (tc cps : ℚ) (acc : Portfolio × ℚ) (hp : priceOn charts d t = none) :
    buyOne charts d tc cps acc t = acc := by
  simp [buyOne, hp]

theorem buyOne_pos {charts : List ChartRow} {d : Date} {t : String} {price : ℚ}
    (tc cps : ℚ) (acc : Portfolio × ℚ) (hp : priceOn charts d t = some price)
    (hpos : 0 < price) :
    buyOne charts d tc cps acc t
      = (insertPf acc.1 t (cps / price), acc.2 - cps / price * price * (1 + tc)) := by
  simp [buyOne, hp, hpos]

theorem buyOne_nonpos {charts : List ChartRow} {d : Date} {t : String}
    {price : ℚ} (tc cps : ℚ) (acc : Portfolio × ℚ)
    (hp : priceOn charts d t = some price) (hpos : ¬ 0 < price) :
    buyOne charts d tc cps acc t = acc := by
  simp [buyOne, hp, hpos]

theorem buyGrossOutlay_nil (charts : List ChartRow) (d : Date) (cps : ℚ) :
    buyGrossOutlay charts d cps [] = 0 := rfl

theorem buyGrossOutlay_cons_none {charts : List ChartRow} {d : Date}
    {t : String} (cps : ℚ) (ts : List String)
    (hp : priceOn charts d t = none) :
    buyGrossOutlay charts d cps (t :: ts) = buyGrossOutlay charts d cps ts := by
  simp [buyGrossOutlay, hp]

theorem buyGrossOutlay_cons_pos {charts : List ChartRow} {d : Date}
    {t : String} {price : ℚ} (cps : ℚ) (ts : List String)
    (hp : priceOn charts d t = some price) (hpos : 0 < price) :
    buyGrossOutlay charts d cps (t :: ts)
      = cps / price * price + buyGrossOutlay charts d cps ts := by
  simp [buyGrossOutlay, hp, hpos]

theorem buyGrossOutlay_cons_nonpos {charts : List ChartRow} {d : Date}
    {t : String} {price : ℚ} (cps : ℚ) (ts : List String)
    (hp : priceOn charts d t = some price) (hpos : ¬ 0 < price) :
    buyGrossOutlay charts d cps (t :: ts) = buyGrossOutlay charts d cps ts := by
  simp [buyGrossOutlay, hp, hpos]

theorem buy_foldl_cash (charts : List ChartRow) (d : Date) (tc cps : ℚ) :
    ∀ (ts : List String) (pf : Portfolio) (c : ℚ),
      (ts.foldl (buyOne charts d tc cps) (pf, c)).2
        = c - buyGrossOutlay charts d cps ts * (1 + tc)
  | [], pf, c => by simp [buyGrossOutlay]
  | t :: ts, pf, c => by
    rw [List.foldl_cons]
    cases hp : priceOn charts d t with
    | none =>
      rw [buyOne_none tc cps _ hp, buyGrossOutlay_cons_none cps ts hp,
        buy_foldl_cash charts d tc cps ts pf c]
    | some price =>
      by_cases hpos : 0 < price
      · rw [buyOne_pos tc cps _ hp hpos, buyGrossOutlay_cons_pos cps ts hp hpos,
          buy_foldl_cash charts d tc cps ts _ _]
        ring
      · rw [buyOne_nonpos tc cps _ hp hpos,
          buyGrossOutlay_cons_nonpos cps ts hp hpos,
          buy_foldl_cash charts d tc cps ts pf c]

theorem buy_foldl_value (charts : List ChartRow) (d : Date) (tc cps : ℚ) :
    ∀ (ts : List String) (pf : Portfolio) (c : ℚ), ts.Nodup →
      (∀ t ∈ ts, ¬ t ∈ pfKeys pf) →
      pfValue charts d ((ts.foldl (buyOne charts d tc cps) (pf, c)).1)
        = pfValue charts d pf + buyGrossOutlay charts d cps ts
  | [], pf, c, _, _ => by simp [buyGrossOutlay]
  | t :: ts, pf, c, hnd, hdisj => by
    rw [List.foldl_cons]
    have hndt : ts.Nodup := (List.nodup_cons.mp hnd).2
    have htn : ¬ t ∈ ts := (List.nodup_cons.mp hnd).1
    cases hp : priceOn charts d t with
    | none =>
      rw [buyOne_none tc cps _ hp, buyGrossOutlay_cons_none cps ts hp,
        buy_foldl_value charts d tc cps ts pf c hndt
          (fun u hu => hdisj u (List.mem_cons_of_mem t hu))]
    | some price =>
      by_cases hpos : 0 < price
      · rw [buyOne_pos tc cps _ hp hpos]
        have hins : insertPf pf t (cps / price) = pf ++ [(t, cps / price)] :=
          insertPf_of_not_mem pf t _ (hdisj t (List.mem_cons_self t ts))
        have hdisj2 : ∀ u ∈ ts, ¬ u ∈ pfKeys (pf ++ [(t, cps / price)]) := by
          intro u hu hmem
          unfold pfKeys at hmem
          rw [List.map_append] at hmem
          rcases List.mem_append.mp hmem with hm | hm
          · exact hdisj u (List.mem_cons_of_mem t hu) hm
          · simp at hm
            exact htn (hm ▸ hu)
        show pfValue charts d
            ((ts.foldl (buyOne charts d tc cps)
              (insertPf pf t (cps / price), c - cps / price * price * (1 + tc))).1) = _
        rw [hins, buy_foldl_value charts d tc cps ts _ _ hndt hdisj2,
          pfValue_append, pfValue_cons, pfValue_nil,
          buyGrossOutlay_cons_pos cps ts hp hpos]
        unfold pfTerm
        simp only [hp]
        ring
      · rw [buyOne_nonpos tc cps _ hp hpos,
          buyGrossOutlay_cons_nonpos cps ts hp hpos,
          buy_foldl_value charts d tc cps ts pf c hndt
            (fun u hu => hdisj u (List.mem_cons_of_mem t hu))]

theorem buy_foldl_shares (charts : List ChartRow) (d : Date) (tc cps : ℚ)
    (hcps : 0 ≤ cps) :
    ∀ (ts : List String) (pf : Portfolio) (c : ℚ), sharesNonneg pf →
      sharesNonneg ((ts.foldl (buyOne charts d tc cps) (pf, c)).1)
  | [], pf, c, hpf => hpf
  | t :: ts, pf, c, hpf => by
    rw [List.foldl_cons]
    cases hp : priceOn charts d t with
    | none =>
      rw [buyOne_none tc cps _ hp]
      exact buy_foldl_shares charts d tc cps hcps ts pf c hpf
    | some price =>
      by_cases hpos : 0 < price
      · rw [buyOne_pos tc cps _ hp hpos]
        exact buy_foldl_shares charts d tc cps hcps ts _ _
          (sharesNonneg_insertPf pf t _ hpf (div_nonneg hcps (le_of_lt hpos)))
      · rw [buyOne_nonpos tc cps _ hp hpos]
        exact buy_foldl_shares charts d tc cps hcps ts pf c hpf

theorem buyGrossOutlay_eq_count (charts : List ChartRow) (d : Date) (cps : ℚ) :
    ∀ ts : List String,
      buyGrossOutlay charts d cps ts = cps * (pricedCount charts d ts : ℚ)
  | [] => by simp [buyGrossOutlay, pricedCount]
  | t :: ts => by
    unfold pricedCount
    rw [List.countP_cons]
    cases hp : priceOn charts d t with
    | none =>
      rw [buyGrossOutlay_cons_none cps ts hp,
        buyGrossOutlay_eq_count charts d cps ts]
      simp only [hp]
      unfold pricedCount
      simp
    | some price =>
      by_cases hpos : 0 < price
      · rw [buyGrossOutlay_cons_pos cps ts hp hpos,
          div_mul_cancel₀ cps (ne_of_gt hpos),
          buyGrossOutlay_eq_count charts d cps ts]
        simp only [hp, hpos, pricedCount, decide_eq_true_eq, if_true,
          List.countP_cons]
        simp only [Nat.cast_add, Nat.cast_ite, Nat.cast_one, Nat.cast_zero]
        ring
      · rw [buyGrossOutlay_cons_nonpos cps ts hp hpos,
          buyGrossOutlay_eq_count charts d cps ts]
        simp only [hp, hpos, pricedCount]
        simp

theorem pricedCount_le_length (charts : List ChartRow) (d : Date)
    (ts : List String) : pricedCount charts d ts ≤ ts.length :=
  List.countP_le_length _

/-! Characterization of liquidation, rebalance and the day step. -/

theorem liquidate_eq (charts : List ChartRow) (d : Date) (tc : ℚ)
    (pf : Portfolio) (cash : ℚ) :
    liquidate charts d tc pf cash = ([], cash + pfValue charts d pf * (1 - tc)) := by
  unfold liquidate
  by_cases h : pf.isEmpty
  · have : pf = [] := List.isEmpty_iff.mp h
    subst this
    simp [pfValue_nil]
  · rw [if_neg h]

theorem rebalance_lastRebalance (financial : List FinRow)
    (charts : List ChartRow) (n : Nat) (tc : ℚ) (s : SimState) (d : Date) :
    (rebalance financial charts n tc s d).lastRebalance = some d := rfl

theorem rebalance_rebLog (financial : List FinRow) (charts : List ChartRow)
    (n : Nat) (tc : ℚ) (s : SimState) (d : Date) :
    (rebalance financial charts n tc s d).rebLog = s.rebLog ++ [d] := rfl

theorem rebalance_history (financial : List FinRow) (charts : List ChartRow)
    (n : Nat) (tc : ℚ) (s : SimState) (d : Date) :
    (rebalance financial charts n tc s d).history = s.history := rfl

theorem rebalance_magicTickers (financial : List FinRow)
    (charts : List ChartRow) (n : Nat) (tc : ℚ) (s : SimState) (d : Date) :
    (rebalance financial charts n tc s d).magicTickers
      = updateTickers financial s.magicTickers d n := rfl

theorem dayStep_not_triggers (financial : List FinRow) (charts : List ChartRow)
    (anchors : List Date) (n : Nat) (tc : ℚ) (s : SimState) (d : Date)
    (h : triggers anchors s.lastRebalance d = false) :
    dayStep financial charts anchors n tc s d
      = { s with history := s.history ++ [(d, s.cash + pfValue charts d s.portfolio)] } := by
  unfold dayStep
  rw [h]
  simp

theorem dayStep_triggers (financial : List FinRow) (charts : List ChartRow)
    (anchors : List Date) (n : Nat) (tc : ℚ) (s : SimState) (d : Date)
    (h : triggers anchors s.lastRebalance d = true) :
    dayStep financial charts anchors n tc s d
      = { rebalance financial charts n tc s d with
          history := s.history ++
            [(d, (rebalance financial charts n tc s d).cash +
              pfValue charts d (rebalance financial charts n tc s d).portfolio)] } := by
  unfold dayStep
  rw [h]
  simp [rebalance_history]

theorem dayStep_history (financial : List FinRow) (charts : List ChartRow)
    (anchors : List Date) (n : Nat) (tc : ℚ) (s : SimState) (d : Date) :
    (dayStep financial charts anchors n tc s d).history
      = s.history ++
        [(d, (dayStep financial charts anchors n tc s d).cash +
          pfValue charts d (dayStep financial charts anchors n tc s d).portfolio)] := by
  by_cases h : triggers anchors s.lastRebalance d
  · rw [dayStep_triggers financial charts anchors n tc s d h]
  · rw [dayStep_not_triggers financial charts anchors n tc s d
      (Bool.not_eq_true _ ▸ h)]

theorem dayStep_lastRebalance_triggers (financial : List FinRow)
    (charts : List ChartRow) (anchors : List Date) (n : Nat) (tc : ℚ)
    (s : SimState) (d : Date)
    (h : triggers anchors s.lastRebalance d = true) :
    (dayStep financial charts anchors n tc s d).lastRebalance = some d := by
  rw [dayStep_triggers financial charts anchors n tc s d h]
  rfl

theorem dayStep_rebLog_triggers (financial : List FinRow)
    (charts : List ChartRow) (anchors : List Date) (n : Nat) (tc : ℚ)
    (s : SimState) (d : Date)
    (h : triggers anchors s.lastRebalance d = true) :
    (dayStep financial charts anchors n tc s d).rebLog = s.rebLog ++ [d] := by
  rw [dayStep_triggers financial charts anchors n tc s d h]
  exact rebalance_rebLog financial charts n tc s d

theorem dayStep_cash_triggers (financial : List FinRow)
    (charts : List ChartRow) (anchors : List Date) (n : Nat) (tc : ℚ)
    (s : SimState) (d : Date)
    (h : triggers anchors s.lastRebalance d = true) :
    (dayStep financial charts anchors n tc s d).cash
      = (rebalance financial charts n tc s d).cash := by
  rw [dayStep_triggers financial charts anchors n tc s d h]

theorem dayStep_portfolio_triggers (financial : List FinRow)
    (charts : List ChartRow) (anchors : List Date) (n : Nat) (tc : ℚ)
    (s : SimState) (d : Date)
    (h : triggers anchors s.lastRebalance d = true) :
    (dayStep financial charts anchors n tc s d).portfolio
      = (rebalance financial charts n tc s d).portfolio := by
  rw [dayStep_triggers financial charts anchors n tc s d h]

theorem dayStep_magicTickers_triggers (financial : List FinRow)
    (charts : List ChartRow) (anchors : List Date) (n : Nat) (tc : ℚ)
    (s : SimState) (d : Date)
    (h : triggers anchors s.lastRebalance d = true) :
    (dayStep financial charts anchors n tc s d).magicTickers
      = updateTickers financial s.magicTickers d n := by
  rw [dayStep_triggers financial charts anchors n tc s d h]
  exact rebalance_magicTickers financial charts n tc s d

theorem runDays_nil (financial : List FinRow) (charts : List ChartRow)
    (anchors : List Date) (n : Nat) (tc : ℚ) (s : SimState) :
    runDays financial charts anchors n tc s [] = s := rfl

theorem runDays_cons (financial : List FinRow) (charts : List ChartRow)
    (anchors : List Date) (n : Nat) (tc : ℚ) (s : SimState) (d : Date)
    (ds : List Date) :
    runDays financial charts anchors n tc s (d :: ds)
      = runDays financial charts anchors n tc
          (dayStep financial charts anchors n tc s d) ds := rfl

/-! Claim C10: frame property of non-rebalance days. -/

/-- C10: on a trading day on which no rebalance triggers, `run_backtest`'s day
step leaves cash, the holdings mapping, the ranking list and the
last-rebalance marker exactly unchanged; the only state change is appending
that day's valuation point to the output sequence. -/
theorem non_rebalance_day_frame (financial : List FinRow)
    (charts : List ChartRow) (anchors : List Date) (n : Nat) (tc : ℚ)
    (s : SimState) (d : Date)
    (h : triggers anchors s.lastRebalance d = false) :
    (dayStep financial charts anchors n tc s d).cash = s.cash ∧
    (dayStep financial charts anchors n tc s d).portfolio = s.portfolio ∧
    (dayStep financial charts anchors n tc s d).magicTickers = s.magicTickers ∧
    (dayStep financial charts anchors n tc s d).lastRebalance = s.lastRebalance ∧
    (dayStep financial charts anchors n tc s d).history
      = s.history ++ [(d, s.cash + pfValue charts d s.portfolio)] := by
  rw [dayStep_not_triggers financial charts anchors n tc s d h]
  exact ⟨rfl, rfl, rfl, rfl, rfl⟩

/-- Witness for C10 at a concrete state and day with no pending anchor. -/
theorem non_rebalance_day_frame_witness :
    triggers [] (initState 100).lastRebalance ⟨2021, 1⟩ = false ∧
    (dayStep [] [] [] 1 0 (initState 100) ⟨2021, 1⟩).cash = (initState 100).cash ∧
    (dayStep [] [] [] 1 0 (initState 100) ⟨2021, 1⟩).portfolio
      = (initState 100).portfolio :=
  ⟨rfl,
    (non_rebalance_day_frame [] [] [] 1 0 (initState 100) ⟨2021, 1⟩ rfl).1,
    (non_rebalance_day_frame [] [] [] 1 0 (initState 100) ⟨2021, 1⟩ rfl).2.1⟩

/-! Claim C1: the point-in-time rule. -/

theorem finForYear_eq_of_outside_agree {fin1 fin2 : List FinRow} {Y : Int}
    (h : fin1.filter (fun r => !(r.business_year == Y))
       = fin2.filter (fun r => !(r.business_year == Y)))
    {y : Int} (hy : y ≠ Y) :
    finForYear fin1 y = finForYear fin2 y := by
  have k : ∀ fin : List FinRow,
      finForYear fin y
        = (fin.filter (fun r => !(r.business_year == Y))).filter
            (fun r => r.business_year == y) := by
    intro fin
    unfold finForYear
    rw [List.filter_filter]
    apply List.filter_congr
    intro r _
    by_cases hb : r.business_year = y
    · have hby : (r.business_year == Y) = false := by
        rw [hb]
        exact beq_eq_false_iff_ne.mpr hy
      simp [hb, hby, hy]
    · have hb2 : (r.business_year == y) = false := beq_eq_false_iff_ne.mpr hb
      simp [hb2]
  rw [k fin1, k fin2, h]

theorem updateTickers_congr {fin1 fin2 : List FinRow} {d : Date}
    (h : finForYear fin1 (d.year - 1) = finForYear fin2 (d.year - 1))
    (prev : List String) (n : Nat) :
    updateTickers fin1 prev d n = updateTickers fin2 prev d n := by
  unfold updateTickers
  rw [h]

/-- C1: point-in-time rule.  A rebalance on day `d` ranks only the records
with `business_year = d.year - 1`; consequently, for any two fundamentals
tables that agree on every record whose fiscal year is not `D.year` (i.e.
a modification touching only fiscal-year-`D.year` records), the whole
simulation state — selected tickers, holdings, cash, recorded history —
is identical after any run over trading days all ≤ `D`. -/
theorem point_in_time_rule (charts : List ChartRow) (anchors : List Date)
    (n : Nat) (tc : ℚ) (D : Date) {fin1 fin2 : List FinRow}
    (hfin : fin1.filter (fun r => !(r.business_year == D.year))
          = fin2.filter (fun r => !(r.business_year == D.year))) :
    ∀ (days : List Date) (s : SimState), (∀ d ∈ days, d ≤ D) →
      runDays fin1 charts anchors n tc s days
        = runDays fin2 charts anchors n tc s days
  | [], s, _ => rfl
  | d :: ds, s, hdays => by
    have hd : d ≤ D := hdays d (List.mem_cons_self d ds)
    have hyne : d.year - 1 ≠ D.year := by
      have := Date.le_year_le hd
      omega
    have hfy : finForYear fin1 (d.year - 1) = finForYear fin2 (d.year - 1) :=
      finForYear_eq_of_outside_agree hfin hyne
    have hreb : rebalance fin1 charts n tc s d = rebalance fin2 charts n tc s d := by
      unfold rebalance
      rw [updateTickers_congr hfy s.magicTickers n]
    have hstep : dayStep fin1 charts anchors n tc s d
        = dayStep fin2 charts anchors n tc s d := by
      by_cases ht : triggers anchors s.lastRebalance d
      · rw [dayStep_triggers fin1 charts anchors n tc s d ht,
          dayStep_triggers fin2 charts anchors n tc s d ht, hreb]
      · rw [dayStep_not_triggers fin1 charts anchors n tc s d
            (Bool.not_eq_true _ ▸ ht),
          dayStep_not_triggers fin2 charts anchors n tc s d
            (Bool.not_eq_true _ ▸ ht)]
    rw [runDays_cons, runDays_cons, hstep]
    exact point_in_time_rule charts anchors n tc D hfin ds
      (dayStep fin2 charts anchors n tc s d)
      (fun x hx => hdays x (List.mem_cons_of_mem d hx))

/-- Witness for C1: two tables differing only in a fiscal-year-2021 record
leave a run over a 2021 trading day (with a live rebalance) unchanged. -/
theorem point_in_time_rule_witness :
    ([⟨"A", 2021, some 1, some 1⟩] : List FinRow).filter
        (fun r => !(r.business_year == (⟨2021, 5⟩ : Date).year))
      = ([⟨"A", 2021, some 9, some 9⟩] : List FinRow).filter
        (fun r => !(r.business_year == (⟨2021, 5⟩ : Date).year)) ∧
    (∀ d ∈ [(⟨2021, 3⟩ : Date)], d ≤ (⟨2021, 5⟩ : Date)) ∧
    runDays [⟨"A", 2021, some 1, some 1⟩] [⟨"A", ⟨2021, 3⟩, 100⟩] [⟨2021, 1⟩]
        1 0 (initState 1000) [⟨2021, 3⟩]
      = runDays [⟨"A", 2021, some 9, some 9⟩] [⟨"A", ⟨2021, 3⟩, 100⟩] [⟨2021, 1⟩]
        1 0 (initState 1000) [⟨2021, 3⟩] :=
  ⟨rfl, by decide,
    point_in_time_rule [⟨"A", ⟨2021, 3⟩, 100⟩] [⟨2021, 1⟩] 1 0 ⟨2021, 5⟩ rfl
      [⟨2021, 3⟩] (initState 1000) (by decide)⟩

/-! Claim C6: the rebalance schedule. -/

theorem dayStep_rebLog_not (financial : List FinRow) (charts : List ChartRow)
    (anchors : List Date) (n : Nat) (tc : ℚ) (s : SimState) (d : Date)
    (h : triggers anchors s.lastRebalance d = false) :
    (dayStep financial charts anchors n tc s d).rebLog = s.rebLog := by
  rw [dayStep_not_triggers financial charts anchors n tc s d h]

theorem dayStep_lastRebalance_not (financial : List FinRow)
    (charts : List ChartRow) (anchors : List Date) (n : Nat) (tc : ℚ)
    (s : SimState) (d : Date)
    (h : triggers anchors s.lastRebalance d = false) :
    (dayStep financial charts anchors n tc s d).lastRebalance = s.lastRebalance := by
  rw [dayStep_not_triggers financial charts anchors n tc s d h]

theorem specSchedule_of_none {anchors : List Date} {last : Option Date}
    (h : nextRebalanceDate anchors last = none) :
    ∀ ds : List Date, specSchedule anchors last ds = []
  | [] => rfl
  | d :: ds => by simp [specSchedule, h]

theorem specSchedule_cons_triggers {anchors : List Date} {last : Option Date}
    {d : Date} (ds : List Date) (h : triggers anchors last d = true) :
    specSchedule anchors last (d :: ds)
      = d :: specSchedule anchors (some d) ds := by
  unfold triggers at h
  cases hn : nextRebalanceDate anchors last with
  | none => rw [hn] at h; simp at h
  | some a =>
    rw [hn] at h
    simp [specSchedule, hn, of_decide_eq_true h]

theorem specSchedule_cons_not {anchors : List Date} {last : Option Date}
    {d : Date} (ds : List Date) (h : triggers anchors last d = false) :
    specSchedule anchors last (d :: ds) = specSchedule anchors last ds := by
  unfold triggers at h
  cases hn : nextRebalanceDate anchors last with
  | none =>
    rw [specSchedule_of_none hn (d :: ds), specSchedule_of_none hn ds]
  | some a =>
    rw [hn] at h
    simp [specSchedule, hn, of_decide_eq_false h]

/-- The ghost rebalance log of a run is exactly the schedule the
specification describes. -/
theorem runDays_rebLog (financial : List FinRow) (charts : List ChartRow)
    (anchors : List Date) (n : Nat) (tc : ℚ) :
    ∀ (days : List Date) (s : SimState),
      (runDays financial charts anchors n tc s days).rebLog
        = s.rebLog ++ specSchedule anchors s.lastRebalance days
  | [], s => by simp [runDays_nil, specSchedule]
  | d :: ds, s => by
    rw [runDays_cons]
    by_cases ht : triggers anchors s.lastRebalance d
    · rw [runDays_rebLog financial charts anchors n tc ds
          (dayStep financial charts anchors n tc s d),
        dayStep_rebLog_triggers financial charts anchors n tc s d ht,
        dayStep_lastRebalance_triggers financial charts anchors n tc s d ht,
        specSchedule_cons_triggers ds ht, List.append_assoc,
        List.singleton_append]
    · have hf : triggers anchors s.lastRebalance d = false :=
        Bool.not_eq_true _ ▸ ht
      rw [runDays_rebLog financial charts anchors n tc ds
          (dayStep financial charts anchors n tc s d),
        dayStep_rebLog_not financial charts anchors n tc s d hf,
        dayStep_lastRebalance_not financial charts anchors n tc s d hf,
        specSchedule_cons_not ds hf]

theorem specSchedule_bound (anchors : List Date) :
    ∀ (days : List Date) (l r : Date),
      r ∈ specSchedule anchors (some l) days → l < r
  | [], l, r, h => by simp [specSchedule] at h
  | d :: ds, l, r, h => by
    cases hn : nextRebalanceDate anchors (some l) with
    | none => rw [specSchedule_of_none hn (d :: ds)] at h; simp at h
    | some a =>
      by_cases hle : a ≤ d
      · rw [show specSchedule anchors (some l) (d :: ds)
              = d :: specSchedule anchors (some d) ds by
            simp [specSchedule, hn, hle]] at h
        have hld : l < d :=
          Date.lt_of_lt_of_le (nextRebalanceDate_lt hn) hle
        rcases List.mem_cons.mp h with h1 | h1
        · exact h1 ▸ hld
        · exact Date.lt_trans hld (specSchedule_bound anchors ds d r h1)
      · rw [show specSchedule anchors (some l) (d :: ds)
              = specSchedule anchors (some l) ds by
            simp [specSchedule, hn, hle]] at h
        exact specSchedule_bound anchors ds l r h

theorem specSchedule_pairwise (anchors : List Date) :
    ∀ (days : List Date) (last : Option Date),
      List.Pairwise (· < ·) (specSchedule anchors last days)
  | [], last => by simp [specSchedule]
  | d :: ds, last => by
    cases hn : nextRebalanceDate anchors last with
    | none => rw [specSchedule_of_none hn (d :: ds)]; exact List.Pairwise.nil
    | some a =>
      by_cases hle : a ≤ d
      · rw [show specSchedule anchors last (d :: ds)
              = d :: specSchedule anchors (some d) ds by
            simp [specSchedule, hn, hle]]
        exact List.Pairwise.cons
          (fun r hr => specSchedule_bound anchors ds d r hr)
          (specSchedule_pairwise anchors ds (some d))
      · rw [show specSchedule anchors last (d :: ds)
              = specSchedule anchors last ds by
            simp [specSchedule, hn, hle]]
        exact specSchedule_pairwise anchors ds last

/-- C6: over any run of `run_backtest`, the executed rebalance days are
exactly the specified schedule — each rebalance on the first trading day ≥
the earliest frequency anchor strictly after the previous rebalance — and
they are strictly increasing, so no day hosts two rebalances and none falls
back to an earlier anchor. -/
theorem monotonic_schedule (startD endD : Date) (cap : ℚ) (n : Nat)
    (anchors : List Date) (tc : ℚ) (financial : List FinRow)
    (charts : List ChartRow) :
    (runBacktestState startD endD cap n anchors tc financial charts).rebLog
      = specSchedule anchors none (tradeDates charts startD endD) ∧
    List.Pairwise (· < ·)
      (runBacktestState startD endD cap n anchors tc financial charts).rebLog := by
  have h := runDays_rebLog financial charts anchors n tc
    (tradeDates charts startD endD) (initState cap)
  have h2 : (runBacktestState startD endD cap n anchors tc financial charts).rebLog
      = specSchedule anchors none (tradeDates charts startD endD) := by
    unfold runBacktestState
    rw [h]
    rfl
  exact ⟨h2, h2 ▸ specSchedule_pairwise anchors (tradeDates charts startD endD) none⟩

/-! Claim C7: daily valuation points. -/

theorem Date.lt_of_le_of_ne {a b : Date} (h : a ≤ b) (h2 : a ≠ b) : a < b := by
  rcases a with ⟨ya, da⟩
  rcases b with ⟨yb, db⟩
  simp only [Date.le_def, Date.lt_def, ne_eq, Date.mk.injEq] at *
  omega

/-- The trading-day list is strictly increasing: the pivot index is sorted
and holds each trading date exactly once. -/
theorem tradeDates_pairwise (charts : List ChartRow) (startD endD : Date) :
    List.Pairwise (· < ·) (tradeDates charts startD endD) := by
  unfold tradeDates sortDates
  set l := ((charts.map (fun r => r.date)).dedup).filter
    (fun d => decide (startD ≤ d) && decide (d ≤ endD)) with hl
  have hsorted : List.Pairwise (· ≤ ·) (l.insertionSort (· ≤ ·)) :=
    List.sorted_insertionSort (· ≤ ·) l
  have hnodup : (l.insertionSort (· ≤ ·)).Nodup :=
    ((List.perm_insertionSort (· ≤ ·) l).symm).nodup
      (((charts.map (fun r => r.date)).nodup_dedup).filter _)
  exact (hsorted.and hnodup).imp
    (fun hab => Date.lt_of_le_of_ne hab.1 hab.2)

theorem statesAlong_nil (financial : List FinRow) (charts : List ChartRow)
    (anchors : List Date) (n : Nat) (tc : ℚ) (s : SimState) :
    statesAlong financial charts anchors n tc s [] = [] := rfl

theorem statesAlong_cons (financial : List FinRow) (charts : List ChartRow)
    (anchors : List Date) (n : Nat) (tc : ℚ) (s : SimState) (d : Date)
    (ds : List Date) :
    statesAlong financial charts anchors n tc s (d :: ds)
      = dayStep financial charts anchors n tc s d ::
          statesAlong financial charts anchors n tc
            (dayStep financial charts anchors n tc s d) ds := rfl

/-- The history accumulated by a run is the per-day valuation of the running
state sequence: one point per processed day, valued as cash plus the
priced-holdings sum of that day's post-step state. -/
theorem runDays_history (financial : List FinRow) (charts : List ChartRow)
    (anchors : List Date) (n : Nat) (tc : ℚ) :
    ∀ (days : List Date) (s : SimState),
      (runDays financial charts anchors n tc s days).history
        = s.history ++
            (days.zip (statesAlong financial charts anchors n tc s days)).map
              (fun p => (p.1, p.2.cash + pricedHoldingsValue charts p.1 p.2.portfolio))
  | [], s => by rw [runDays_nil, statesAlong_nil]; simp
  | d :: ds, s => by
    rw [runDays_cons,
      runDays_history financial charts anchors n tc ds
        (dayStep financial charts anchors n tc s d),
      dayStep_history financial charts anchors n tc s d,
      pfValue_eq_pricedHoldingsValue, statesAlong_cons, List.zip_cons_cons,
      List.map_cons, List.append_assoc, List.singleton_append]

theorem valuation_dates (financial : List FinRow) (charts : List ChartRow)
    (anchors : List Date) (n : Nat) (tc : ℚ) :
    ∀ (days : List Date) (s : SimState),
      ((days.zip (statesAlong financial charts anchors n tc s days)).map
        (fun p => (p.1, p.2.cash + pricedHoldingsValue charts p.1 p.2.portfolio))).map
          Prod.fst = days
  | [], s => rfl
  | d :: ds, s => by
    rw [statesAlong_cons, List.zip_cons_cons, List.map_cons, List.map_cons]
    rw [valuation_dates financial charts anchors n tc ds
      (dayStep financial charts anchors n tc s d)]

/-- C7: `run_backtest` appends exactly one valuation point per trading day,
in strictly ascending date order; each point's value is the state's cash plus
the sum of `shares × close` over exactly the holdings priced that day
(a holding with no price is excluded from the sum, not valued at zero), and
this sequence is the function's entire return value. -/
theorem daily_valuation (startD endD : Date) (cap : ℚ) (n : Nat)
    (anchors : List Date) (tc : ℚ) (financial : List FinRow)
    (charts : List ChartRow) :
    run_backtest startD endD cap n anchors tc financial charts
      = ((tradeDates charts startD endD).zip
          (statesAlong financial charts anchors n tc (initState cap)
            (tradeDates charts startD endD))).map
          (fun p => (p.1, p.2.cash + pricedHoldingsValue charts p.1 p.2.portfolio)) ∧
    (run_backtest startD endD cap n anchors tc financial charts).map Prod.fst
      = tradeDates charts startD endD ∧
    List.Pairwise (· < ·) (tradeDates charts startD endD) := by
  have hrun : run_backtest startD endD cap n anchors tc financial charts
      = ((tradeDates charts startD endD).zip
          (statesAlong financial charts anchors n tc (initState cap)
            (tradeDates charts startD endD))).map
          (fun p => (p.1, p.2.cash + pricedHoldingsValue charts p.1 p.2.portfolio)) := by
    unfold run_backtest
    by_cases he : (tradeDates charts startD endD).isEmpty
    · rw [if_pos he, List.isEmpty_iff.mp he]
      rfl
    · rw [if_neg he]
      unfold runBacktestState
      rw [runDays_history financial charts anchors n tc
        (tradeDates charts startD endD) (initState cap)]
      rfl
  refine ⟨hrun, ?_, tradeDates_pairwise charts startD endD⟩
  rw [hrun]
  exact valuation_dates financial charts anchors n tc
    (tradeDates charts startD endD) (initState cap)

/-! Claims C9 and C8: empty window and configuration handling. -/

theorem tradeDates_eq_nil {charts : List ChartRow} {startD endD : Date}
    (h : ∀ r ∈ charts, ¬ (startD ≤ r.date ∧ r.date ≤ endD)) :
    tradeDates charts startD endD = [] := by
  unfold tradeDates sortDates
  have hf : ((charts.map (fun r => r.date)).dedup).filter
      (fun d => decide (startD ≤ d) && decide (d ≤ endD)) = [] := by
    rw [List.filter_eq_nil_iff]
    intro d hd
    rcases List.mem_map.mp (List.mem_dedup.mp hd) with ⟨r, hr, hrd⟩
    simp only [Bool.and_eq_true, decide_eq_true_eq]
    intro hcon
    exact h r hr (hrd ▸ hcon)
  rw [hf]
  rfl

theorem run_backtest_of_no_tradeDates {charts : List ChartRow}
    {startD endD : Date} (cap : ℚ) (n : Nat) (anchors : List Date) (tc : ℚ)
    (financial : List FinRow)
    (h : ∀ r ∈ charts, ¬ (startD ≤ r.date ∧ r.date ≤ endD)) :
    run_backtest startD endD cap n anchors tc financial charts = [] := by
  unfold run_backtest
  rw [tradeDates_eq_nil h]
  rfl

/-- C9: when the price table has no trading day inside the inclusive window
`[start_date, end_date]`, `run_backtest` returns the empty result and raises
no error. -/
theorem empty_window_empty_result (startD endD : Date) (cap : ℚ) (n : Nat)
    (anchors : List Date) (tc : ℚ) (financial : List FinRow)
    (charts : List ChartRow)
    (h : ∀ r ∈ charts, ¬ (startD ≤ r.date ∧ r.date ≤ endD)) :
    run_backtest startD endD cap n anchors tc financial charts = [] :=
  run_backtest_of_no_tradeDates cap n anchors tc financial h

/-- Witness for C9: a chart whose only date lies before the window. -/
theorem empty_window_empty_result_witness :
    (∀ r ∈ ([⟨"A", ⟨2020, 1⟩, 100⟩] : List ChartRow),
      ¬ ((⟨2021, 1⟩ : Date) ≤ r.date ∧ r.date ≤ (⟨2022, 1⟩ : Date))) ∧
    run_backtest ⟨2021, 1⟩ ⟨2022, 1⟩ 1000 5 [] 0 [] [⟨"A", ⟨2020, 1⟩, 100⟩] = [] :=
  ⟨by decide,
    empty_window_empty_result ⟨2021, 1⟩ ⟨2022, 1⟩ 1000 5 [] 0 []
      [⟨"A", ⟨2020, 1⟩, 100⟩] (by decide)⟩

theorem Date.not_le_of_lt {a b : Date} (h : a < b) : ¬ b ≤ a := by
  simp only [Date.lt_def, Date.le_def] at *
  omega

/-- C8 (amended): `run_backtest` performs no configuration validation and has
no failure path.  A reversed (hence invalid) date range is not rejected: the
trading-day set is empty, so the run returns the empty result instead of
surfacing an error. -/
theorem reversed_window_no_error (startD endD : Date) (cap : ℚ) (n : Nat)
    (anchors : List Date) (tc : ℚ) (financial : List FinRow)
    (charts : List ChartRow) (h : endD < startD) :
    run_backtest startD endD cap n anchors tc financial charts = [] := by
  refine run_backtest_of_no_tradeDates cap n anchors tc financial ?_
  intro r _ hcon
  exact Date.not_le_of_lt h (Date.le_trans hcon.1 hcon.2)

/-- Witness for the amended C8 at a concrete reversed window. -/
theorem reversed_window_no_error_witness :
    ((⟨2020, 1⟩ : Date) < ⟨2021, 1⟩) ∧
    run_backtest ⟨2021, 1⟩ ⟨2020, 1⟩ 1000 5 [] 0 [] [] = [] :=
  ⟨by decide,
    reversed_window_no_error ⟨2021, 1⟩ ⟨2020, 1⟩ 1000 5 [] 0 [] [] (by decide)⟩

/-- Counterexample to C8 as stated: with a negative initial capital, a zero
`num_stocks` and a cost rate of 2 (all outside the documented valid ranges),
`run_backtest` does not fail fast — it runs the simulation and returns a
valuation sequence. -/
theorem no_validation_counterexample :
    ((-100 : ℚ) < 0) ∧ ((1 : ℚ) < 2) ∧
    run_backtest ⟨2021, 1⟩ ⟨2021, 1⟩ (-100) 0 [] 2 [] [⟨"A", ⟨2021, 1⟩, 100⟩]
      = [(⟨2021, 1⟩, -100)] := by
  refine ⟨by norm_num, by norm_num, ?_⟩
  have ht : tradeDates [⟨"A", ⟨2021, 1⟩, 100⟩] ⟨2021, 1⟩ ⟨2021, 1⟩
      = [⟨2021, 1⟩] := by decide
  unfold run_backtest runBacktestState
  rw [ht, if_neg (by decide : ¬ (([⟨2021, 1⟩] : List Date).isEmpty = true)),
    runDays_cons, runDays_nil,
    dayStep_not_triggers _ _ _ _ _ _ _ (by decide)]
  simp [initState, pfValue_nil]

/-! Claim C2: cash non-negativity. -/

theorem priceOn_close {charts : List ChartRow} {d : Date} {t : String}
    {price : ℚ} (h : priceOn charts d t = some price) :
    ∃ r ∈ charts, r.close = price := by
  unfold priceOn at h
  rcases Option.map_eq_some'.mp h with ⟨r, hr, hrc⟩
  exact ⟨r, List.mem_of_find?_eq_some hr, hrc⟩

theorem pfValue_nonneg {charts : List ChartRow} (d : Date)
    (hcl : ∀ r ∈ charts, 0 ≤ r.close) :
    ∀ pf : Portfolio, sharesNonneg pf → 0 ≤ pfValue charts d pf
  | [], _ => le_of_eq (pfValue_nil charts d).symm
  | p :: pf, hs => by
    rw [pfValue_cons]
    have h1 : 0 ≤ pfTerm charts d p := by
      unfold pfTerm
      cases hp : priceOn charts d p.1 with
      | none => exact le_refl 0
      | some price =>
        rcases priceOn_close hp with ⟨r, hr, hrc⟩
        exact mul_nonneg (hrc ▸ hcl r hr) (hs p (List.mem_cons_self p pf))
    have h2 : 0 ≤ pfValue charts d pf :=
      pfValue_nonneg d hcl pf (fun q hq => hs q (List.mem_cons_of_mem p hq))
    linarith

theorem allocate_cash_nonneg (charts : List ChartRow) (d : Date)
    (ts : List String) (pf : Portfolio) (c : ℚ) (hc : 0 ≤ c) :
    0 ≤ (allocate charts d 0 ts pf c).2 := by
  unfold allocate
  by_cases hg : 0 < c ∧ ts ≠ []
  · rw [if_pos hg]
    rw [buy_foldl_cash charts d 0 (c / (ts.length : ℚ)) ts pf c,
      buyGrossOutlay_eq_count]
    have hlen : 0 < (ts.length : ℚ) := by
      have : 0 < ts.length := List.length_pos.mpr hg.2
      exact_mod_cast this
    have hcount : (pricedCount charts d ts : ℚ) ≤ (ts.length : ℚ) := by
      exact_mod_cast pricedCount_le_length charts d ts
    have hcps : 0 ≤ c / (ts.length : ℚ) := div_nonneg hc (le_of_lt hlen)
    have hb : c / (ts.length : ℚ) * (pricedCount charts d ts : ℚ)
        ≤ c / (ts.length : ℚ) * (ts.length : ℚ) :=
      mul_le_mul_of_nonneg_left hcount hcps
    rw [div_mul_cancel₀ c (ne_of_gt hlen)] at hb
    linarith
  · rw [if_neg hg]
    exact hc

theorem allocate_shares_nonneg (charts : List ChartRow) (d : Date)
    (ts : List String) (pf : Portfolio) (c : ℚ) (hc : 0 ≤ c)
    (hs : sharesNonneg pf) :
    sharesNonneg (allocate charts d 0 ts pf c).1 := by
  unfold allocate
  by_cases hg : 0 < c ∧ ts ≠ []
  · rw [if_pos hg]
    have hlen : (0 : ℚ) ≤ (ts.length : ℚ) := by positivity
    exact buy_foldl_shares charts d 0 (c / (ts.length : ℚ))
      (div_nonneg hc hlen) ts pf c hs
  · rw [if_neg hg]
    exact hs

theorem dayStep_nonneg (financial : List FinRow) (charts : List ChartRow)
    (anchors : List Date) (n : Nat) (hcl : ∀ r ∈ charts, 0 ≤ r.close)
    (s : SimState) (d : Date) (hc : 0 ≤ s.cash)
    (hs : sharesNonneg s.portfolio) :
    0 ≤ (dayStep financial charts anchors n 0 s d).cash ∧
    sharesNonneg (dayStep financial charts anchors n 0 s d).portfolio := by
  by_cases ht : triggers anchors s.lastRebalance d
  · rw [dayStep_triggers financial charts anchors n 0 s d ht]
    unfold rebalance
    rw [liquidate_eq]
    have hc1 : 0 ≤ s.cash + pfValue charts d s.portfolio * (1 - 0) := by
      have := pfValue_nonneg d hcl s.portfolio hs
      linarith
    constructor
    · exact allocate_cash_nonneg charts d
        (updateTickers financial s.magicTickers d n) [] _ hc1
    · exact allocate_shares_nonneg charts d
        (updateTickers financial s.magicTickers d n) [] _ hc1
        (fun p hp => absurd hp (List.not_mem_nil p))
  · rw [dayStep_not_triggers financial charts anchors n 0 s d
      (Bool.not_eq_true _ ▸ ht)]
    exact ⟨hc, hs⟩

/-- C2 (amended): with a zero transaction-cost rate and nonnegative close
prices, cash stays ≥ 0 after every simulated day (hence after every
liquidate/allocate pair — the day's trailing valuation does not change cash),
and all held share counts stay ≥ 0.  With a positive cost rate the claim
fails: the allocation loop deducts `capital_per_stock × (1 + rate)` per
priced ticker, overspending the available cash (see the counterexample). -/
theorem cash_nonneg_zero_cost (financial : List FinRow)
    (charts : List ChartRow) (anchors : List Date) (n : Nat)
    (hcl : ∀ r ∈ charts, 0 ≤ r.close) :
    ∀ (days : List Date) (s : SimState), 0 ≤ s.cash →
      sharesNonneg s.portfolio →
      0 ≤ (runDays financial charts anchors n 0 s days).cash ∧
      sharesNonneg (runDays financial charts anchors n 0 s days).portfolio
  | [], s, hc, hs => ⟨hc, hs⟩
  | d :: ds, s, hc, hs => by
    rw [runDays_cons]
    have hstep := dayStep_nonneg financial charts anchors n hcl s d hc hs
    exact cash_nonneg_zero_cost financial charts anchors n hcl ds
      (dayStep financial charts anchors n 0 s d) hstep.1 hstep.2

/-- Witness for the amended C2 on a concrete one-day, one-ticker run. -/
theorem cash_nonneg_zero_cost_witness :
    (∀ r ∈ ([⟨"A", ⟨2021, 1⟩, 100⟩] : List ChartRow), 0 ≤ r.close) ∧
    (0 : ℚ) ≤ (initState 1000).cash ∧
    0 ≤ (runDays [⟨"A", 2020, some 10, some 5⟩] [⟨"A", ⟨2021, 1⟩, 100⟩]
      [⟨2021, 1⟩] 1 0 (initState 1000) [⟨2021, 1⟩]).cash :=
  ⟨by decide, by decide,
    (cash_nonneg_zero_cost [⟨"A", 2020, some 10, some 5⟩]
      [⟨"A", ⟨2021, 1⟩, 100⟩] [⟨2021, 1⟩] 1 (by decide) [⟨2021, 1⟩]
      (initState 1000) (by decide)
      (fun p hp => absurd hp (List.not_mem_nil p))).1⟩

/-- Counterexample to C2 as stated: with the valid configuration
`initial_capital = 1000 > 0`, `transaction_cost = 1/100 ∈ [0,1)`, one ticker
priced `100` on the single trading and rebalance day, the allocation buys
`10` shares for `10 × 100 × 1.01 = 1010`, leaving cash `= -10 < 0` after the
liquidate/allocate pair. -/
theorem cash_goes_negative_counterexample :
    (0 : ℚ) < 1000 ∧ (0 : ℚ) ≤ 1 / 100 ∧ (1 : ℚ) / 100 < 1 ∧
    (runBacktestState ⟨2021, 1⟩ ⟨2021, 1⟩ 1000 1 [⟨2021, 1⟩] (1 / 100)
        [⟨"A", 2020, some 10, some 5⟩] [⟨"A", ⟨2021, 1⟩, 100⟩]).cash = -10 ∧
    (runBacktestState ⟨2021, 1⟩ ⟨2021, 1⟩ 1000 1 [⟨2021, 1⟩] (1 / 100)
        [⟨"A", 2020, some 10, some 5⟩] [⟨"A", ⟨2021, 1⟩, 100⟩]).cash < 0 := by
  have ht : tradeDates [⟨"A", ⟨2021, 1⟩, 100⟩] ⟨2021, 1⟩ ⟨2021, 1⟩
      = [⟨2021, 1⟩] := by decide
  have htick : updateTickers [⟨"A", 2020, some 10, some 5⟩] [] ⟨2021, 1⟩ 1
      = ["A"] := by decide
  have hp : priceOn [⟨"A", ⟨2021, 1⟩, 100⟩] ⟨2021, 1⟩ "A" = some 100 := by
    decide
  have hcash : (runBacktestState ⟨2021, 1⟩ ⟨2021, 1⟩ 1000 1 [⟨2021, 1⟩]
      (1 / 100) [⟨"A", 2020, some 10, some 5⟩]
      [⟨"A", ⟨2021, 1⟩, 100⟩]).cash = -10 := by
    unfold runBacktestState
    rw [ht, runDays_cons, runDays_nil,
      dayStep_cash_triggers _ _ _ _ _ _ _ (by decide)]
    unfold rebalance
    simp only [initState]
    rw [htick]
    rw [show liquidate [⟨"A", ⟨2021, 1⟩, 100⟩] ⟨2021, 1⟩ (1 / 100) [] 1000
        = ([], 1000) from rfl]
    unfold allocate
    rw [if_pos ⟨by norm_num, by simp⟩, List.foldl_cons,
      buyOne_pos (1 / 100) _ _ hp (by norm_num), List.foldl_nil]
    simp
    norm_num
  exact ⟨by norm_num, by norm_num, by norm_num, hcash, by rw [hcash]; norm_num⟩

/-! Claim C3: the empty-selection policy. -/

/-- C3 (amended): when no eligible record exists for fiscal year
`d.year - 1`, the rebalance keeps the previous content of the ranking
variable, which is empty only if no earlier rebalance produced a nonempty
selection.  In that case (previous selection empty) the day ends fully in
cash: holdings are cleared, nothing is bought, and cash holds the
liquidation proceeds.  When a previous rebalance left a nonempty selection,
the stale list is re-bought instead (see the counterexample). -/
theorem empty_selection_policy (financial : List FinRow)
    (charts : List ChartRow) (anchors : List Date) (n : Nat) (tc : ℚ)
    (s : SimState) (d : Date) (htick : s.magicTickers = [])
    (hempty : (finForYear financial (d.year - 1)).filter eligible = [])
    (htrig : triggers anchors s.lastRebalance d = true) :
    (dayStep financial charts anchors n tc s d).portfolio = [] ∧
    (dayStep financial charts anchors n tc s d).magicTickers = [] ∧
    (dayStep financial charts anchors n tc s d).cash
      = s.cash + pfValue charts d s.portfolio * (1 - tc) := by
  have hupd : updateTickers financial s.magicTickers d n = [] := by
    simp only [updateTickers, hempty, List.isEmpty_nil, if_true]
    rw [ite_self]
    exact htick
  have halloc : ∀ c : ℚ, allocate charts d tc [] [] c = ([], c) := by
    intro c
    unfold allocate
    rw [if_neg (fun hcon => hcon.2 rfl)]
  refine ⟨?_, ?_, ?_⟩
  · rw [dayStep_portfolio_triggers financial charts anchors n tc s d htrig]
    unfold rebalance
    rw [hupd, liquidate_eq]
    simp [halloc]
  · rw [dayStep_magicTickers_triggers financial charts anchors n tc s d htrig]
    exact hupd
  · rw [dayStep_cash_triggers financial charts anchors n tc s d htrig]
    unfold rebalance
    rw [hupd, liquidate_eq]
    simp [halloc]

/-- Witness for the amended C3: a first rebalance with an empty fundamentals
table ends the day fully in cash. -/
theorem empty_selection_policy_witness :
    ((initState 1000).magicTickers = []) ∧
    ((finForYear [] ((⟨2021, 1⟩ : Date).year - 1)).filter eligible = []) ∧
    (triggers [⟨2021, 1⟩] (initState 1000).lastRebalance ⟨2021, 1⟩ = true) ∧
    (dayStep [] [] [⟨2021, 1⟩] 1 0 (initState 1000) ⟨2021, 1⟩).portfolio = [] ∧
    (dayStep [] [] [⟨2021, 1⟩] 1 0 (initState 1000) ⟨2021, 1⟩).magicTickers = [] :=
  ⟨rfl, rfl, by decide,
    (empty_selection_policy [] [] [⟨2021, 1⟩] 1 0 (initState 1000) ⟨2021, 1⟩
      rfl rfl (by decide)).1,
    (empty_selection_policy [] [] [⟨2021, 1⟩] 1 0 (initState 1000) ⟨2021, 1⟩
      rfl rfl (by decide)).2.1⟩

/-- Counterexample to C3 as stated: the fundamentals table has a record only
for fiscal year 2020.  The 2022 rebalance therefore finds no record for its
required year 2021 — yet the ranking is the stale 2021 selection `["A"]`,
carried over from the previous rebalance, and the day ends fully invested in
`"A"`, not in cash. -/
theorem stale_selection_counterexample :
    ((finForYear [⟨"A", 2020, some 10, some 5⟩]
        ((⟨2022, 1⟩ : Date).year - 1)).filter eligible = []) ∧
    (runBacktestState ⟨2021, 1⟩ ⟨2022, 1⟩ 1000 1 [⟨2021, 1⟩, ⟨2022, 1⟩] 0
        [⟨"A", 2020, some 10, some 5⟩]
        [⟨"A", ⟨2021, 1⟩, 100⟩, ⟨"A", ⟨2022, 1⟩, 110⟩]).magicTickers
      = ["A"] ∧
    (runBacktestState ⟨2021, 1⟩ ⟨2022, 1⟩ 1000 1 [⟨2021, 1⟩, ⟨2022, 1⟩] 0
        [⟨"A", 2020, some 10, some 5⟩]
        [⟨"A", ⟨2021, 1⟩, 100⟩, ⟨"A", ⟨2022, 1⟩, 110⟩]).portfolio
      = [("A", 10)] := by
  have ht : tradeDates [⟨"A", ⟨2021, 1⟩, 100⟩, ⟨"A", ⟨2022, 1⟩, 110⟩]
      ⟨2021, 1⟩ ⟨2022, 1⟩ = [⟨2021, 1⟩, ⟨2022, 1⟩] := by decide
  have hp1 : priceOn [⟨"A", ⟨2021, 1⟩, 100⟩, ⟨"A", ⟨2022, 1⟩, 110⟩]
      ⟨2021, 1⟩ "A" = some 100 := by decide
  have hp2 : priceOn [⟨"A", ⟨2021, 1⟩, 100⟩, ⟨"A", ⟨2022, 1⟩, 110⟩]
      ⟨2022, 1⟩ "A" = some 110 := by decide
  have htick1 : updateTickers [⟨"A", 2020, some 10, some 5⟩] [] ⟨2021, 1⟩ 1
      = ["A"] := by decide
  have htick2 : updateTickers [⟨"A", 2020, some 10, some 5⟩] ["A"] ⟨2022, 1⟩ 1
      = ["A"] := by decide
  -- day-1 state facts
  have htrig1 : triggers [⟨2021, 1⟩, ⟨2022, 1⟩] (initState 1000).lastRebalance
      ⟨2021, 1⟩ = true := by decide
  have halloc1 : allocate [⟨"A", ⟨2021, 1⟩, 100⟩, ⟨"A", ⟨2022, 1⟩, 110⟩]
      ⟨2021, 1⟩ 0 ["A"] [] 1000 = ([("A", 10)], 0) := by
    unfold allocate
    rw [if_pos ⟨by norm_num, by simp⟩, List.foldl_cons,
      buyOne_pos 0 _ _ hp1 (by norm_num), List.foldl_nil]
    simp [insertPf]
    norm_num
  have hliq1 : liquidate [⟨"A", ⟨2021, 1⟩, 100⟩, ⟨"A", ⟨2022, 1⟩, 110⟩]
      ⟨2021, 1⟩ 0 [] 1000 = ([], 1000) := rfl
  have hreb1 : rebalance [⟨"A", 2020, some 10, some 5⟩]
      [⟨"A", ⟨2021, 1⟩, 100⟩, ⟨"A", ⟨2022, 1⟩, 110⟩] 1 0 (initState 1000)
      ⟨2021, 1⟩
      = { portfolio := [("A", 10)], cash := 0, lastRebalance := some ⟨2021, 1⟩,
          magicTickers := ["A"], history := [], rebLog := [⟨2021, 1⟩] } := by
    unfold rebalance
    simp [initState, htick1, hliq1, halloc1]
  have hval1 : pfValue [⟨"A", ⟨2021, 1⟩, 100⟩, ⟨"A", ⟨2022, 1⟩, 110⟩]
      ⟨2021, 1⟩ [("A", 10)] = 1000 := by
    rw [pfValue_cons, pfValue_nil]
    unfold pfTerm
    rw [hp1]
    norm_num
  have hs1' : dayStep [⟨"A", 2020, some 10, some 5⟩]
      [⟨"A", ⟨2021, 1⟩, 100⟩, ⟨"A", ⟨2022, 1⟩, 110⟩] [⟨2021, 1⟩, ⟨2022, 1⟩]
      1 0 (initState 1000) ⟨2021, 1⟩
      = { portfolio := [("A", 10)], cash := 0, lastRebalance := some ⟨2021, 1⟩,
          magicTickers := ["A"], history := [(⟨2021, 1⟩, 1000)],
          rebLog := [⟨2021, 1⟩] } := by
    rw [dayStep_triggers _ _ _ _ _ _ _ htrig1, hreb1]
    simp [initState, hval1]
  -- day-2 rebalance
  have hliq2 : liquidate [⟨"A", ⟨2021, 1⟩, 100⟩, ⟨"A", ⟨2022, 1⟩, 110⟩]
      ⟨2022, 1⟩ 0 [("A", 10)] 0 = ([], 1100) := by
    rw [liquidate_eq, pfValue_cons, pfValue_nil]
    unfold pfTerm
    rw [hp2]
    norm_num
  have halloc2 : allocate [⟨"A", ⟨2021, 1⟩, 100⟩, ⟨"A", ⟨2022, 1⟩, 110⟩]
      ⟨2022, 1⟩ 0 ["A"] [] 1100 = ([("A", 10)], 0) := by
    unfold allocate
    rw [if_pos ⟨by norm_num, by simp⟩, List.foldl_cons,
      buyOne_pos 0 _ _ hp2 (by norm_num), List.foldl_nil]
    simp [insertPf]
    norm_num
  have hreb2 : rebalance [⟨"A", 2020, some 10, some 5⟩]
      [⟨"A", ⟨2021, 1⟩, 100⟩, ⟨"A", ⟨2022, 1⟩, 110⟩] 1 0
      { portfolio := [("A", 10)], cash := 0, lastRebalance := some ⟨2021, 1⟩,
        magicTickers := ["A"], history := [(⟨2021, 1⟩, 1000)],
        rebLog := [⟨2021, 1⟩] } ⟨2022, 1⟩
      = { portfolio := [("A", 10)], cash := 0, lastRebalance := some ⟨2022, 1⟩,
          magicTickers := ["A"], history := [(⟨2021, 1⟩, 1000)],
          rebLog := [⟨2021, 1⟩, ⟨2022, 1⟩] } := by
    unfold rebalance
    simp [htick2, hliq2, halloc2]
  refine ⟨by decide, ?_, ?_⟩
  · unfold runBacktestState
    rw [ht, runDays_cons, runDays_cons, runDays_nil, hs1',
      dayStep_magicTickers_triggers _ _ _ _ _ _ _ (by decide)]
    exact htick2
  · unfold runBacktestState
    rw [ht, runDays_cons, runDays_cons, runDays_nil, hs1',
      dayStep_portfolio_triggers _ _ _ _ _ _ _ (by decide), hreb2]

/-! Claim C4: conservation at a rebalance. -/

/-- C4: on a rebalance day, the total value (cash plus the day-`d` value of
the priced holdings) immediately after the liquidate/allocate pair equals
the total value immediately before it, minus the transaction costs paid on
the sells (`tc ×` liquidation value) and on the buys (`tc ×` gross purchase
amount).  The `Nodup` hypothesis is the data-model invariant of one
fundamentals record per (ticker, fiscal year). -/
theorem conservation_at_rebalance (financial : List FinRow)
    (charts : List ChartRow) (anchors : List Date) (n : Nat) (tc : ℚ)
    (s : SimState) (d : Date)
    (htrig : triggers anchors s.lastRebalance d = true)
    (hnd : (updateTickers financial s.magicTickers d n).Nodup) :
    (dayStep financial charts anchors n tc s d).cash
      + pfValue charts d (dayStep financial charts anchors n tc s d).portfolio
    = s.cash + pfValue charts d s.portfolio
      - tc * pfValue charts d s.portfolio
      - tc * rebalanceBuyGross financial charts n tc s d := by
  have hk : ∀ t ∈ updateTickers financial s.magicTickers d n,
      ¬ t ∈ pfKeys ([] : Portfolio) := by
    intro t _ hmem
    simp [pfKeys] at hmem
  rw [dayStep_cash_triggers financial charts anchors n tc s d htrig,
    dayStep_portfolio_triggers financial charts anchors n tc s d htrig]
  unfold rebalance rebalanceBuyGross
  simp only [liquidate_eq]
  unfold allocate
  by_cases hg : 0 < s.cash + pfValue charts d s.portfolio * (1 - tc) ∧
      updateTickers financial s.magicTickers d n ≠ []
  · rw [if_pos hg, if_pos hg,
      buy_foldl_cash charts d tc _ (updateTickers financial s.magicTickers d n)
        [] _,
      buy_foldl_value charts d tc _ (updateTickers financial s.magicTickers d n)
        [] _ hnd hk, pfValue_nil]
    ring
  · rw [if_neg hg, if_neg hg, pfValue_nil]
    ring

/-- Witness for C4 on the concrete one-day run with cost rate 1/100. -/
theorem conservation_at_rebalance_witness :
    (triggers [⟨2021, 1⟩] (initState 1000).lastRebalance ⟨2021, 1⟩ = true) ∧
    ((updateTickers [⟨"A", 2020, some 10, some 5⟩]
        (initState 1000).magicTickers ⟨2021, 1⟩ 1).Nodup) ∧
    ((dayStep [⟨"A", 2020, some 10, some 5⟩] [⟨"A", ⟨2021, 1⟩, 100⟩]
        [⟨2021, 1⟩] 1 (1 / 100) (initState 1000) ⟨2021, 1⟩).cash
      + pfValue [⟨"A", ⟨2021, 1⟩, 100⟩] ⟨2021, 1⟩
          (dayStep [⟨"A", 2020, some 10, some 5⟩] [⟨"A", ⟨2021, 1⟩, 100⟩]
            [⟨2021, 1⟩] 1 (1 / 100) (initState 1000) ⟨2021, 1⟩).portfolio
      = (initState 1000).cash
        + pfValue [⟨"A", ⟨2021, 1⟩, 100⟩] ⟨2021, 1⟩ (initState 1000).portfolio
        - 1 / 100 * pfValue [⟨"A", ⟨2021, 1⟩, 100⟩] ⟨2021, 1⟩
            (initState 1000).portfolio
        - 1 / 100 * rebalanceBuyGross [⟨"A", 2020, some 10, some 5⟩]
            [⟨"A", ⟨2021, 1⟩, 100⟩] 1 (1 / 100) (initState 1000) ⟨2021, 1⟩) :=
  ⟨by decide, by decide,
    conservation_at_rebalance [⟨"A", 2020, some 10, some 5⟩]
      [⟨"A", ⟨2021, 1⟩, 100⟩] [⟨2021, 1⟩] 1 (1 / 100) (initState 1000)
      ⟨2021, 1⟩ (by decide) (by decide)⟩

/-! Claim C5: the ranking algorithm. -/

theorem countP_key_self {f : FinRow → ℚ} :
    ∀ {l : List FinRow} {r : FinRow}, r ∈ l →
      l.Pairwise (fun a b => f a ≠ f b) →
      l.countP (fun s => decide (f s = f r)) = 1 := by
  intro l
  induction l with
  | nil => intro r h; exact absurd h (List.not_mem_nil r)
  | cons x xs ih =>
    intro r hmem hpair
    rw [List.countP_cons]
    rcases List.pairwise_cons.mp hpair with ⟨hx, hxs⟩
    rcases List.mem_cons.mp hmem with he | hm
    · subst he
      have h0 : xs.countP (fun s => decide (f s = f r)) = 0 :=
        List.countP_eq_zero.mpr (fun s hs => by
          simp only [decide_eq_true_eq]
          exact fun hc => hx s hs hc.symm)
      rw [h0]
      simp
    · have hxr : (decide (f x = f r)) = false :=
        decide_eq_false (hx r hm)
      rw [ih hm hxs, hxr]
      simp

theorem countP_tie_or {f : FinRow → ℚ} {b : FinRow → Bool}
    {l : List FinRow} {r : FinRow} (hmem : r ∈ l)
    (hpair : l.Pairwise (fun a c => f a ≠ f c)) :
    l.countP
        (fun s => b s || (decide (f s = f r) && decide (s.ticker < r.ticker)))
      = l.countP b := by
  apply List.countP_congr
  intro s hs
  simp only [Bool.or_eq_true, Bool.and_eq_true, decide_eq_true_eq]
  constructor
  · rintro (h | ⟨heq, hlt⟩)
    · exact h
    · exfalso
      have hsym : Symmetric (fun a c : FinRow => f a ≠ f c) :=
        fun _ _ h => h.symm
      have hsr : s = r := by
        by_contra hne
        exact hpair.forall hsym hs hmem hne heq
      rw [hsr] at hlt
      exact lt_irrefl r.ticker hlt
  · exact fun h => Or.inl h

theorem rankRoe_eq_specRankRoe (fl : List FinRow) (r : FinRow) (hmem : r ∈ fl)
    (hpair : fl.Pairwise (fun a b => roeOf a ≠ roeOf b)) :
    rankRoe fl r = specRankRoe fl r := by
  unfold rankRoe specRankRoe
  rw [countP_key_self hmem hpair, countP_tie_or hmem hpair]
  norm_num

theorem rankEv_eq_specRankEv (fl : List FinRow) (r : FinRow) (hmem : r ∈ fl)
    (hpair : fl.Pairwise (fun a b => evOf a ≠ evOf b)) :
    rankEvEbitda fl r = specRankEv fl r := by
  unfold rankEvEbitda specRankEv
  rw [countP_key_self hmem hpair, countP_tie_or hmem hpair]
  norm_num

theorem rankTotal_eq_specRankTotal (fl : List FinRow)
    (hpair : fl.Pairwise (fun a b => roeOf a ≠ roeOf b ∧ evOf a ≠ evOf b)) :
    ∀ r ∈ fl, rankTotal fl r = specRankTotal fl r := by
  intro r hr
  unfold rankTotal specRankTotal
  rw [rankRoe_eq_specRankRoe fl r hr (hpair.imp (fun h => h.1)),
    rankEv_eq_specRankEv fl r hr (hpair.imp (fun h => h.2))]

/-- C5 (amended): the ranking pipeline filters exactly as claimed, but pandas
`rank` assigns tied values the average of their positions instead of breaking
ties by ticker.  Whenever no two eligible records share a `roe` value and no
two share an `ev_ebitda` value — so the tie-break never fires — the code's
ranking coincides with the claim's described algorithm (distinct per-ticker
ranks, combined score, ascending sort, first `top_n`). -/
theorem ranking_matches_claim_without_ties (snapshot : List FinRow) (n : Nat)
    (hpair : (snapshot.filter eligible).Pairwise
      (fun a b => roeOf a ≠ roeOf b ∧ evOf a ≠ evOf b)) :
    codeRanking snapshot n = claimedRanking snapshot n := by
  unfold codeRanking rankSelection sortByRankTotal claimedRanking
  rw [show (snapshot.filter eligible).map
        (fun r => (rankTotal (snapshot.filter eligible) r, r))
      = (snapshot.filter eligible).map
        (fun r => (specRankTotal (snapshot.filter eligible) r, r)) from
    List.map_congr_left (fun r hr => by
      rw [rankTotal_eq_specRankTotal (snapshot.filter eligible) hpair r hr])]

/-- Witness for the amended C5 on a snapshot with distinct values in both
dimensions. -/
theorem ranking_matches_claim_without_ties_witness :
    (([⟨"A", 2020, some 10, some 5⟩, ⟨"B", 2020, some 8, some 3⟩] :
        List FinRow).filter eligible).Pairwise
      (fun a b => roeOf a ≠ roeOf b ∧ evOf a ≠ evOf b) ∧
    codeRanking [⟨"A", 2020, some 10, some 5⟩, ⟨"B", 2020, some 8, some 3⟩] 2
      = claimedRanking
          [⟨"A", 2020, some 10, some 5⟩, ⟨"B", 2020, some 8, some 3⟩] 2 :=
  ⟨by decide,
    ranking_matches_claim_without_ties
      [⟨"A", 2020, some 10, some 5⟩, ⟨"B", 2020, some 8, some 3⟩] 2
      (by decide)⟩

/-- Counterexample to C5 as stated: on a snapshot where `"A"`, `"B"`, `"C"`
tie on `roe`, pandas average ranking (all three get roe-rank 2) selects
`["C"]`, while the claim's ticker-lexical tie-break (ranks 1, 2, 3) selects
`["A"]`; all combined scores are distinct in both pipelines, so neither
output depends on any sort-tie handling. -/
theorem ranking_tie_break_counterexample :
    codeRanking
        [⟨"A", 2020, some 10, some 2⟩, ⟨"B", 2020, some 10, some 3⟩,
          ⟨"C", 2020, some 10, some 1⟩, ⟨"D", 2020, some 5, some 4⟩] 1
      = ["C"] ∧
    claimedRanking
        [⟨"A", 2020, some 10, some 2⟩, ⟨"B", 2020, some 10, some 3⟩,
          ⟨"C", 2020, some 10, some 1⟩, ⟨"D", 2020, some 5, some 4⟩] 1
      = ["A"] ∧
    (["C"] : List String) ≠ ["A"] := by
  have hf : ([⟨"A", 2020, some 10, some 2⟩, ⟨"B", 2020, some 10, some 3⟩,
      ⟨"C", 2020, some 10, some 1⟩, ⟨"D", 2020, some 5, some 4⟩] :
        List FinRow).filter eligible
      = [⟨"A", 2020, some 10, some 2⟩, ⟨"B", 2020, some 10, some 3⟩,
          ⟨"C", 2020, some 10, some 1⟩, ⟨"D", 2020, some 5, some 4⟩] := by
    decide
  have hA : rankTotal
      [⟨"A", 2020, some 10, some 2⟩, ⟨"B", 2020, some 10, some 3⟩,
        ⟨"C", 2020, some 10, some 1⟩, ⟨"D", 2020, some 5, some 4⟩]
      ⟨"A", 2020, some 10, some 2⟩ = 4 := by
    norm_num +decide [rankTotal, rankRoe, rankEvEbitda, roeOf, evOf,
      List.countP_cons, List.countP_nil]
  have hB : rankTotal
      [⟨"A", 2020, some 10, some 2⟩, ⟨"B", 2020, some 10, some 3⟩,
        ⟨"C", 2020, some 10, some 1⟩, ⟨"D", 2020, some 5, some 4⟩]
      ⟨"B", 2020, some 10, some 3⟩ = 5 := by
    norm_num +decide [rankTotal, rankRoe, rankEvEbitda, roeOf, evOf,
      List.countP_cons, List.countP_nil]
  have hC : rankTotal
      [⟨"A", 2020, some 10, some 2⟩, ⟨"B", 2020, some 10, some 3⟩,
        ⟨"C", 2020, some 10, some 1⟩, ⟨"D", 2020, some 5, some 4⟩]
      ⟨"C", 2020, some 10, some 1⟩ = 3 := by
    norm_num +decide [rankTotal, rankRoe, rankEvEbitda, roeOf, evOf,
      List.countP_cons, List.countP_nil]
  have hD : rankTotal
      [⟨"A", 2020, some 10, some 2⟩, ⟨"B", 2020, some 10, some 3⟩,
        ⟨"C", 2020, some 10, some 1⟩, ⟨"D", 2020, some 5, some 4⟩]
      ⟨"D", 2020, some 5, some 4⟩ = 8 := by
    norm_num +decide [rankTotal, rankRoe, rankEvEbitda, roeOf, evOf,
      List.countP_cons, List.countP_nil]
  have sA : specRankTotal
      [⟨"A", 2020, some 10, some 2⟩, ⟨"B", 2020, some 10, some 3⟩,
        ⟨"C", 2020, some 10, some 1⟩, ⟨"D", 2020, some 5, some 4⟩]
      ⟨"A", 2020, some 10, some 2⟩ = 3 := by
    norm_num +decide [specRankTotal, specRankRoe, specRankEv, roeOf, evOf,
      List.countP_cons, List.countP_nil]
  have sB : specRankTotal
      [⟨"A", 2020, some 10, some 2⟩, ⟨"B", 2020, some 10, some 3⟩,
        ⟨"C", 2020, some 10, some 1⟩, ⟨"D", 2020, some 5, some 4⟩]
      ⟨"B", 2020, some 10, some 3⟩ = 5 := by
    norm_num +decide [specRankTotal, specRankRoe, specRankEv, roeOf, evOf,
      List.countP_cons, List.countP_nil]
  have sC : specRankTotal
      [⟨"A", 2020, some 10, some 2⟩, ⟨"B", 2020, some 10, some 3⟩,
        ⟨"C", 2020, some 10, some 1⟩, ⟨"D", 2020, some 5, some 4⟩]
      ⟨"C", 2020, some 10, some 1⟩ = 4 := by
    norm_num +decide [specRankTotal, specRankRoe, specRankEv, roeOf, evOf,
      List.countP_cons, List.countP_nil]
  have sD : specRankTotal
      [⟨"A", 2020, some 10, some 2⟩, ⟨"B", 2020, some 10, some 3⟩,
        ⟨"C", 2020, some 10, some 1⟩, ⟨"D", 2020, some 5, some 4⟩]
      ⟨"D", 2020, some 5, some 4⟩ = 8 := by
    norm_num +decide [specRankTotal, specRankRoe, specRankEv, roeOf, evOf,
      List.countP_cons, List.countP_nil]
  refine ⟨?_, ?_, by decide⟩
  · unfold codeRanking rankSelection sortByRankTotal
    rw [hf, List.map_cons, List.map_cons, List.map_cons, List.map_cons,
      List.map_nil, hA, hB, hC, hD]
    norm_num [List.insertionSort, List.orderedInsert]
  · unfold claimedRanking
    rw [hf]
    simp only [List.map_cons, List.map_nil, sA, sB, sC, sD]
    norm_num [List.insertionSort, List.orderedInsert]

end AiStock
